import Mathlib

/-!
Verification of the dependency-edit engine and the source-distribution
extension parser of this repository.

Part 1 embeds `crates/uv-distribution-filename/src/extension.rs`
(`SourceDistExtension::from_path`, `SourceDistExtension::name`, `is_tar`)
over strings modelled as `List Char`, together with the fragment of Rust's
`std::path::Path` semantics (`extension`, `file_stem`) that the parser
uses on single-component file names.

Part 2 models the manifest-edit engine (`uv add` / `uv remove`).  Its
implementation is not part of this excerpt (only its integration tests in
`crates/uv/tests/it/edit.rs` are), so the definitions are modelled from
the specification, with the test snapshots as ground truth where they pin
concrete behaviour (exit codes, sort order, dual dev-site removal).
-/

namespace UvModel

/-- Strings are modelled as lists of characters. -/
abbrev Str := List Char

/-- ASCII lower-casing of one character, as in Rust's `to_ascii_lowercase`. -/
def asciiLower (c : Char) : Char :=
  if 'A' ≤ c ∧ c ≤ 'Z' then Char.ofNat (c.toNat + 32) else c

/-- Rust `eq_ignore_ascii_case` on strings: equality after ASCII lower-casing. -/
def eqIgnoreAsciiCase (a b : Str) : Bool :=
  a.map asciiLower == b.map asciiLower

/-- The characters after the last `.` of a file name (the whole name when
there is no dot). -/
def afterLastDot (s : Str) : Str :=
  (s.reverse.takeWhile (fun c => c != '.')).reverse

/-- The characters before the last `.` of a file name. -/
def beforeLastDot (s : Str) : Str :=
  ((s.reverse.dropWhile (fun c => c != '.')).drop 1).reverse

/-- Rust's `split_file_at_dot`: split a file name into stem and extension at
the last dot, where a dot at index 0 does not count as a separator and
`".."` is special-cased. -/
def splitFileAtDot (f : Str) : Str × Option Str :=
  if f = ['.', '.'] then (f, none)
  else if ('.' : Char) ∈ f ∧ beforeLastDot f ≠ [] then
    (beforeLastDot f, some (afterLastDot f))
  else (f, none)

/-- Rust `Path::file_name` restricted to single-component relative paths:
`""`, `"."` and `".."` have no file name, every other such path is its own
file name. -/
def fileNameOpt (p : Str) : Option Str :=
  if p = [] ∨ p = ['.'] ∨ p = ['.', '.'] then none else some p

/-- Rust `Path::extension` on single-component paths. -/
def pathExtension (p : Str) : Option Str :=
  (fileNameOpt p).bind fun f => (splitFileAtDot f).2

/-- Rust `Path::file_stem` on single-component paths. -/
def fileStem (p : Str) : Option Str :=
  (fileNameOpt p).map fun f => (splitFileAtDot f).1

/-- The two variants of `ExtensionError` in `extension.rs`. -/
inductive ExtensionError where
  | Dist
  | SourceDist
deriving DecidableEq, Repr

/-- The `SourceDistExtension` enum of `extension.rs`. -/
inductive SourceDistExtension where
  | Tar
  | TarBz2
  | TarGz
  | TarLz
  | TarLzma
  | TarXz
  | TarZst
  | Tbz
  | Tgz
  | Tlz
  | Txz
  | Zip
deriving DecidableEq, Repr

/-- `SourceDistExtension::name`. -/
def SourceDistExtension.name : SourceDistExtension → Str
  | .Tar => ['t', 'a', 'r']
  | .TarBz2 => ['t', 'a', 'r', '.', 'b', 'z', '2']
  | .TarGz => ['t', 'a', 'r', '.', 'g', 'z']
  | .TarLz => ['t', 'a', 'r', '.', 'l', 'z']
  | .TarLzma => ['t', 'a', 'r', '.', 'l', 'z', 'm', 'a']
  | .TarXz => ['t', 'a', 'r', '.', 'x', 'z']
  | .TarZst => ['t', 'a', 'r', '.', 'z', 's', 't']
  | .Tbz => ['t', 'b', 'z']
  | .Tgz => ['t', 'g', 'z']
  | .Tlz => ['t', 'l', 'z']
  | .Txz => ['t', 'x', 'z']
  | .Zip => ['z', 'i', 'p']

/-- The nested `is_tar` helper of `SourceDistExtension::from_path`: the
file stem itself has extension `tar`, compared ASCII-case-insensitively. -/
def is_tar (p : Str) : Bool :=
  match fileStem p with
  | none => false
  | some stem =>
    match pathExtension stem with
    | none => false
    | some e => eqIgnoreAsciiCase e (['t', 'a', 'r'])

/-- The arm selection of the `match extension` expression inside
`SourceDistExtension::from_path`: `tar` is the value of the `is_tar(path)`
guard on the compound arms (an arm whose guard fails falls through to the
catch-all `Err` arm, as in the Rust `match`). -/
def classifyExt (ext : Str) (tar : Bool) :
    Except ExtensionError SourceDistExtension :=
  if ext = ['z', 'i', 'p'] then .ok .Zip
  else if ext = ['t', 'a', 'r'] then .ok .Tar
  else if ext = ['t', 'g', 'z'] then .ok .Tgz
  else if ext = ['t', 'b', 'z'] then .ok .Tbz
  else if ext = ['t', 'x', 'z'] then .ok .Txz
  else if ext = ['t', 'l', 'z'] then .ok .Tlz
  else if ext = ['g', 'z'] then
    (if tar then .ok .TarGz else .error .SourceDist)
  else if ext = ['b', 'z', '2'] then
    (if tar then .ok .TarBz2 else .error .SourceDist)
  else if ext = ['x', 'z'] then
    (if tar then .ok .TarXz else .error .SourceDist)
  else if ext = ['l', 'z'] then
    (if tar then .ok .TarLz else .error .SourceDist)
  else if ext = ['l', 'z', 'm', 'a'] then
    (if tar then .ok .TarLzma else .error .SourceDist)
  else if ext = ['z', 's', 't'] then
    (if tar then .ok .TarZst else .error .SourceDist)
  else .error .SourceDist

/-- `SourceDistExtension::from_path`: take the final extension of the path
and match on it, with the compound (`.tar.*`) arms guarded by `is_tar`. -/
def SourceDistExtension.from_path (p : Str) :
    Except ExtensionError SourceDistExtension :=
  match pathExtension p with
  | none => .error .SourceDist
  | some ext => classifyExt ext (is_tar p)

end UvModel

namespace UvModel

theorem takeWhile_append_all {p : Char → Bool} {l₁ l₂ : Str}
    (h : ∀ a ∈ l₁, p a = true) :
    (l₁ ++ l₂).takeWhile p = l₁ ++ l₂.takeWhile p := by
  induction l₁ with
  | nil => simp
  | cons a l ih =>
    have ha : p a = true := h a (List.mem_cons_self a l)
    simp [List.takeWhile, ha, ih fun b hb => h b (List.mem_cons_of_mem a hb)]

theorem dropWhile_append_all {p : Char → Bool} {l₁ l₂ : Str}
    (h : ∀ a ∈ l₁, p a = true) :
    (l₁ ++ l₂).dropWhile p = l₂.dropWhile p := by
  induction l₁ with
  | nil => simp
  | cons a l ih =>
    have ha : p a = true := h a (List.mem_cons_self a l)
    simp [List.dropWhile, ha, ih fun b hb => h b (List.mem_cons_of_mem a hb)]

theorem afterLastDot_append {s₁ ext : Str} (h : ('.' : Char) ∉ ext) :
    afterLastDot (s₁ ++ '.' :: ext) = ext := by
  have hrev : (s₁ ++ '.' :: ext).reverse = ext.reverse ++ '.' :: s₁.reverse := by
    simp
  have hall : ∀ a ∈ ext.reverse, (a != '.') = true := by
    intro a ha
    simp only [List.mem_reverse] at ha
    simp only [bne_iff_ne, ne_eq]
    intro hc; exact h (hc ▸ ha)
  unfold afterLastDot
  rw [hrev, takeWhile_append_all hall]
  simp [List.takeWhile]

theorem beforeLastDot_append {s₁ ext : Str} (h : ('.' : Char) ∉ ext) :
    beforeLastDot (s₁ ++ '.' :: ext) = s₁ := by
  have hrev : (s₁ ++ '.' :: ext).reverse = ext.reverse ++ '.' :: s₁.reverse := by
    simp
  have hall : ∀ a ∈ ext.reverse, (a != '.') = true := by
    intro a ha
    simp only [List.mem_reverse] at ha
    simp only [bne_iff_ne, ne_eq]
    intro hc; exact h (hc ▸ ha)
  unfold beforeLastDot
  rw [hrev, dropWhile_append_all hall]
  simp [List.dropWhile]

theorem splitFileAtDot_append {s₁ ext : Str} (h₁ : s₁ ≠ [])
    (h₂ : s₁ ≠ ['.']) (h₃ : ('.' : Char) ∉ ext) :
    splitFileAtDot (s₁ ++ '.' :: ext) = (s₁, some ext) := by
  have hne₂ : s₁ ++ '.' :: ext ≠ ['.', '.'] := by
    intro hcon
    have hpos : 0 < s₁.length := List.length_pos.mpr h₁
    have hlen := congrArg List.length hcon
    simp at hlen
    have hext : ext = [] := by
      cases ext with
      | nil => rfl
      | cons a l => exfalso; simp at hlen; omega
    have hs₁ : s₁.length = 1 := by subst hext; simp at hlen; omega
    obtain ⟨a, ha⟩ := List.length_eq_one.mp hs₁
    subst ha hext
    simp at hcon
    exact h₂ (by simp [hcon])
  have hmem : ('.' : Char) ∈ s₁ ++ '.' :: ext := by simp
  have hbefore := @beforeLastDot_append s₁ ext h₃
  have hafter := @afterLastDot_append s₁ ext h₃
  unfold splitFileAtDot
  rw [if_neg hne₂, if_pos ⟨hmem, by rw [hbefore]; exact h₁⟩, hbefore, hafter]

theorem fileNameOpt_append {s₁ ext : Str} (h₁ : s₁ ≠ []) (h₂ : s₁ ≠ ['.']) :
    fileNameOpt (s₁ ++ '.' :: ext) = some (s₁ ++ '.' :: ext) := by
  unfold fileNameOpt
  rw [if_neg]
  push_neg
  refine ⟨by simp, ?_, ?_⟩
  · intro hcon
    have hpos : 0 < s₁.length := List.length_pos.mpr h₁
    have hlen := congrArg List.length hcon
    simp at hlen
    omega
  · intro hcon
    have hpos : 0 < s₁.length := List.length_pos.mpr h₁
    have hlen := congrArg List.length hcon
    simp at hlen
    have hext : ext = [] := by
      cases ext with
      | nil => rfl
      | cons a l => exfalso; simp at hlen; omega
    have hs₁ : s₁.length = 1 := by subst hext; simp at hlen; omega
    obtain ⟨a, ha⟩ := List.length_eq_one.mp hs₁
    subst ha hext
    simp at hcon
    exact h₂ (by simp [hcon])

theorem pathExtension_append {s₁ ext : Str} (h₁ : s₁ ≠ [])
    (h₂ : s₁ ≠ ['.']) (h₃ : ('.' : Char) ∉ ext) :
    pathExtension (s₁ ++ '.' :: ext) = some ext := by
  unfold pathExtension
  rw [fileNameOpt_append h₁ h₂]
  show (splitFileAtDot (s₁ ++ '.' :: ext)).2 = some ext
  rw [splitFileAtDot_append h₁ h₂ h₃]

theorem fileStem_append {s₁ ext : Str} (h₁ : s₁ ≠ [])
    (h₂ : s₁ ≠ ['.']) (h₃ : ('.' : Char) ∉ ext) :
    fileStem (s₁ ++ '.' :: ext) = some s₁ := by
  unfold fileStem
  rw [fileNameOpt_append h₁ h₂]
  show some (splitFileAtDot (s₁ ++ '.' :: ext)).1 = some s₁
  rw [splitFileAtDot_append h₁ h₂ h₃]

end UvModel

namespace UvModel

/-- The extension literal of the unguarded arm producing a given variant. -/
def simpleExtOf : SourceDistExtension → Option Str
  | .Zip => some ['z', 'i', 'p']
  | .Tar => some ['t', 'a', 'r']
  | .Tgz => some ['t', 'g', 'z']
  | .Tbz => some ['t', 'b', 'z']
  | .Txz => some ['t', 'x', 'z']
  | .Tlz => some ['t', 'l', 'z']
  | _ => none

/-- The extension literal of the `is_tar`-guarded arm producing a variant. -/
def guardedExtOf : SourceDistExtension → Option Str
  | .TarGz => some ['g', 'z']
  | .TarBz2 => some ['b', 'z', '2']
  | .TarXz => some ['x', 'z']
  | .TarLz => some ['l', 'z']
  | .TarLzma => some ['l', 'z', 'm', 'a']
  | .TarZst => some ['z', 's', 't']
  | _ => none

theorem classifyExt_eq_ok_iff (ext : Str) (tar : Bool) (v : SourceDistExtension) :
    classifyExt ext tar = .ok v ↔
      (simpleExtOf v = some ext ∨ (guardedExtOf v = some ext ∧ tar = true)) := by
  constructor
  · intro h
    unfold classifyExt at h
    by_cases h1 : ext = ['z', 'i', 'p']
    · rw [if_pos h1] at h
      obtain rfl := Except.ok.inj h
      exact Or.inl (by subst h1; rfl)
    rw [if_neg h1] at h
    by_cases h2 : ext = ['t', 'a', 'r']
    · rw [if_pos h2] at h
      obtain rfl := Except.ok.inj h
      exact Or.inl (by subst h2; rfl)
    rw [if_neg h2] at h
    by_cases h3 : ext = ['t', 'g', 'z']
    · rw [if_pos h3] at h
      obtain rfl := Except.ok.inj h
      exact Or.inl (by subst h3; rfl)
    rw [if_neg h3] at h
    by_cases h4 : ext = ['t', 'b', 'z']
    · rw [if_pos h4] at h
      obtain rfl := Except.ok.inj h
      exact Or.inl (by subst h4; rfl)
    rw [if_neg h4] at h
    by_cases h5 : ext = ['t', 'x', 'z']
    · rw [if_pos h5] at h
      obtain rfl := Except.ok.inj h
      exact Or.inl (by subst h5; rfl)
    rw [if_neg h5] at h
    by_cases h6 : ext = ['t', 'l', 'z']
    · rw [if_pos h6] at h
      obtain rfl := Except.ok.inj h
      exact Or.inl (by subst h6; rfl)
    rw [if_neg h6] at h
    by_cases h7 : ext = ['g', 'z']
    · rw [if_pos h7] at h
      cases tar with
      | true =>
        obtain rfl := Except.ok.inj h
        exact Or.inr ⟨by subst h7; rfl, rfl⟩
      | false => exact Except.noConfusion h
    rw [if_neg h7] at h
    by_cases h8 : ext = ['b', 'z', '2']
    · rw [if_pos h8] at h
      cases tar with
      | true =>
        obtain rfl := Except.ok.inj h
        exact Or.inr ⟨by subst h8; rfl, rfl⟩
      | false => exact Except.noConfusion h
    rw [if_neg h8] at h
    by_cases h9 : ext = ['x', 'z']
    · rw [if_pos h9] at h
      cases tar with
      | true =>
        obtain rfl := Except.ok.inj h
        exact Or.inr ⟨by subst h9; rfl, rfl⟩
      | false => exact Except.noConfusion h
    rw [if_neg h9] at h
    by_cases h10 : ext = ['l', 'z']
    · rw [if_pos h10] at h
      cases tar with
      | true =>
        obtain rfl := Except.ok.inj h
        exact Or.inr ⟨by subst h10; rfl, rfl⟩
      | false => exact Except.noConfusion h
    rw [if_neg h10] at h
    by_cases h11 : ext = ['l', 'z', 'm', 'a']
    · rw [if_pos h11] at h
      cases tar with
      | true =>
        obtain rfl := Except.ok.inj h
        exact Or.inr ⟨by subst h11; rfl, rfl⟩
      | false => exact Except.noConfusion h
    rw [if_neg h11] at h
    by_cases h12 : ext = ['z', 's', 't']
    · rw [if_pos h12] at h
      cases tar with
      | true =>
        obtain rfl := Except.ok.inj h
        exact Or.inr ⟨by subst h12; rfl, rfl⟩
      | false => exact Except.noConfusion h
    rw [if_neg h12] at h
    exact Except.noConfusion h
  · rintro (hs | ⟨hg, rfl⟩)
    · cases v <;> simp only [simpleExtOf] at hs <;> try cases hs
      all_goals rfl
    · cases v <;> simp only [guardedExtOf] at hg <;> try cases hg
      all_goals rfl

end UvModel

namespace UvModel

theorem simpleExtOf_eq_none_of_guarded {v : SourceDistExtension} {l : Str}
    (h : guardedExtOf v = some l) : simpleExtOf v = none := by
  cases v <;> first | rfl | cases h

theorem from_path_simple_arm (f last : Str) (v : SourceDistExtension)
    (h₁ : f ≠ []) (hfdot : f ≠ ['.']) (hlast : ('.' : Char) ∉ last)
    (hsimple : simpleExtOf v = some last) :
    SourceDistExtension.from_path (f ++ '.' :: last) = .ok v := by
  have hext := @pathExtension_append f last h₁ hfdot hlast
  simp only [SourceDistExtension.from_path, hext]
  exact (classifyExt_eq_ok_iff last _ v).mpr (Or.inl hsimple)

theorem from_path_tar_compound (f last : Str) (v : SourceDistExtension)
    (h₁ : f ≠ []) (hfdot : f ≠ ['.']) (hlast : ('.' : Char) ∉ last)
    (hguard : guardedExtOf v = some last) :
    SourceDistExtension.from_path ((f ++ '.' :: ['t', 'a', 'r']) ++ '.' :: last) =
      .ok v := by
  have h₁b : f ++ '.' :: ['t', 'a', 'r'] ≠ [] := by simp
  have h₂b : f ++ '.' :: ['t', 'a', 'r'] ≠ ['.'] := by
    intro hcon
    have hlen := congrArg List.length hcon
    simp at hlen
  have hext := @pathExtension_append
    (f ++ '.' :: ['t', 'a', 'r']) last h₁b h₂b hlast
  have hstem := @fileStem_append
    (f ++ '.' :: ['t', 'a', 'r']) last h₁b h₂b hlast
  have htar := @pathExtension_append
    f ['t', 'a', 'r'] h₁ hfdot (by decide)
  have histar :
      is_tar ((f ++ '.' :: ['t', 'a', 'r']) ++ '.' :: last) = true := by
    simp only [is_tar, hstem, htar]
    rfl
  simp only [SourceDistExtension.from_path, hext, histar]
  exact (classifyExt_eq_ok_iff last true v).mpr (Or.inr ⟨hguard, rfl⟩)

end UvModel

namespace UvModel

/-- C9: for every `SourceDistExtension` value `e` and every base file name
`f` that is non-empty and contains no dot, `SourceDistExtension::from_path`
applied to the path `f` followed by `.` followed by `e.name()` returns
`Ok(e)`: `name` and `from_path` are mutually inverse on well-formed file
names. -/
theorem sourceDistExtension_name_from_path_roundtrip
    (e : SourceDistExtension) (f : Str) (h₁ : f ≠ []) (h₂ : ('.' : Char) ∉ f) :
    SourceDistExtension.from_path (f ++ '.' :: e.name) = .ok e := by
  have hfdot : f ≠ ['.'] := by intro hcon; exact h₂ (by simp [hcon])
  cases e with
  | Tar => exact from_path_simple_arm f ['t', 'a', 'r'] .Tar h₁ hfdot (by decide) rfl
  | Tgz => exact from_path_simple_arm f ['t', 'g', 'z'] .Tgz h₁ hfdot (by decide) rfl
  | Tbz => exact from_path_simple_arm f ['t', 'b', 'z'] .Tbz h₁ hfdot (by decide) rfl
  | Txz => exact from_path_simple_arm f ['t', 'x', 'z'] .Txz h₁ hfdot (by decide) rfl
  | Tlz => exact from_path_simple_arm f ['t', 'l', 'z'] .Tlz h₁ hfdot (by decide) rfl
  | Zip => exact from_path_simple_arm f ['z', 'i', 'p'] .Zip h₁ hfdot (by decide) rfl
  | TarGz =>
    have hassoc : f ++ '.' :: SourceDistExtension.name .TarGz
        = (f ++ '.' :: ['t', 'a', 'r']) ++ '.' :: ['g', 'z'] := by
      rw [List.append_assoc]; rfl
    rw [hassoc]
    exact from_path_tar_compound f ['g', 'z'] .TarGz h₁ hfdot (by decide) rfl
  | TarBz2 =>
    have hassoc : f ++ '.' :: SourceDistExtension.name .TarBz2
        = (f ++ '.' :: ['t', 'a', 'r']) ++ '.' :: ['b', 'z', '2'] := by
      rw [List.append_assoc]; rfl
    rw [hassoc]
    exact from_path_tar_compound f ['b', 'z', '2'] .TarBz2 h₁ hfdot (by decide) rfl
  | TarXz =>
    have hassoc : f ++ '.' :: SourceDistExtension.name .TarXz
        = (f ++ '.' :: ['t', 'a', 'r']) ++ '.' :: ['x', 'z'] := by
      rw [List.append_assoc]; rfl
    rw [hassoc]
    exact from_path_tar_compound f ['x', 'z'] .TarXz h₁ hfdot (by decide) rfl
  | TarLz =>
    have hassoc : f ++ '.' :: SourceDistExtension.name .TarLz
        = (f ++ '.' :: ['t', 'a', 'r']) ++ '.' :: ['l', 'z'] := by
      rw [List.append_assoc]; rfl
    rw [hassoc]
    exact from_path_tar_compound f ['l', 'z'] .TarLz h₁ hfdot (by decide) rfl
  | TarLzma =>
    have hassoc : f ++ '.' :: SourceDistExtension.name .TarLzma
        = (f ++ '.' :: ['t', 'a', 'r']) ++ '.' :: ['l', 'z', 'm', 'a'] := by
      rw [List.append_assoc]; rfl
    rw [hassoc]
    exact from_path_tar_compound f ['l', 'z', 'm', 'a'] .TarLzma h₁ hfdot (by decide) rfl
  | TarZst =>
    have hassoc : f ++ '.' :: SourceDistExtension.name .TarZst
        = (f ++ '.' :: ['t', 'a', 'r']) ++ '.' :: ['z', 's', 't'] := by
      rw [List.append_assoc]; rfl
    rw [hassoc]
    exact from_path_tar_compound f ['z', 's', 't'] .TarZst h₁ hfdot (by decide) rfl

/-- Witness for C9: the round-trip theorem applied at the concrete base name
`pkg` and the extension `tar.gz`. -/
theorem sourceDistExtension_name_from_path_roundtrip_witness :
    (['p', 'k', 'g'] ≠ ([] : Str) ∧ ('.' : Char) ∉ ['p', 'k', 'g'])
      ∧ SourceDistExtension.from_path
          (['p', 'k', 'g'] ++ '.' :: SourceDistExtension.name .TarGz)
        = .ok .TarGz :=
  ⟨⟨by decide, by decide⟩,
    sourceDistExtension_name_from_path_roundtrip .TarGz ['p', 'k', 'g']
      (by decide) (by decide)⟩

end UvModel

namespace UvModel

theorem from_path_guarded_iff (p : Str) (v : SourceDistExtension) (last : Str)
    (hg : guardedExtOf v = some last) :
    SourceDistExtension.from_path p = .ok v ↔
      pathExtension p = some last ∧ is_tar p = true := by
  cases hE : pathExtension p with
  | none =>
    simp only [SourceDistExtension.from_path, hE]
    constructor
    · intro h; exact Except.noConfusion h
    · rintro ⟨hc, _⟩; exact Option.noConfusion hc
  | some ext =>
    simp only [SourceDistExtension.from_path, hE]
    rw [classifyExt_eq_ok_iff]
    constructor
    · rintro (hs | ⟨hg2, ht⟩)
      · rw [simpleExtOf_eq_none_of_guarded hg] at hs
        exact Option.noConfusion hs
      · rw [hg] at hg2
        obtain rfl := Option.some.inj hg2
        exact ⟨rfl, ht⟩
    · rintro ⟨hsome, ht⟩
      obtain rfl := Option.some.inj hsome
      exact Or.inr ⟨hg, ht⟩

/-- C10: `from_path` accepts a final extension of `gz`, `bz2`, `xz`, `lz`,
`lzma` or `zst` exactly when the file stem's own extension equals `tar`
compared case-insensitively (`is_tar`), while the final extension itself is
matched case-sensitively in lowercase: `x.TAR.gz` parses as `TarGz`, while
`x.tar.GZ` and a bare `x.gz` without a `tar` stem return
`Err(ExtensionError::SourceDist)`. -/
theorem compound_extension_case_asymmetry :
    (∀ p : Str, SourceDistExtension.from_path p = .ok .TarGz ↔
      pathExtension p = some ['g', 'z'] ∧ is_tar p = true)
    ∧ (∀ p : Str, SourceDistExtension.from_path p = .ok .TarBz2 ↔
      pathExtension p = some ['b', 'z', '2'] ∧ is_tar p = true)
    ∧ (∀ p : Str, SourceDistExtension.from_path p = .ok .TarXz ↔
      pathExtension p = some ['x', 'z'] ∧ is_tar p = true)
    ∧ (∀ p : Str, SourceDistExtension.from_path p = .ok .TarLz ↔
      pathExtension p = some ['l', 'z'] ∧ is_tar p = true)
    ∧ (∀ p : Str, SourceDistExtension.from_path p = .ok .TarLzma ↔
      pathExtension p = some ['l', 'z', 'm', 'a'] ∧ is_tar p = true)
    ∧ (∀ p : Str, SourceDistExtension.from_path p = .ok .TarZst ↔
      pathExtension p = some ['z', 's', 't'] ∧ is_tar p = true)
    ∧ SourceDistExtension.from_path ['x', '.', 'T', 'A', 'R', '.', 'g', 'z']
        = .ok .TarGz
    ∧ SourceDistExtension.from_path ['x', '.', 't', 'a', 'r', '.', 'G', 'Z']
        = .error .SourceDist
    ∧ SourceDistExtension.from_path ['x', '.', 'g', 'z']
        = .error .SourceDist :=
  ⟨fun p => from_path_guarded_iff p .TarGz ['g', 'z'] rfl,
    fun p => from_path_guarded_iff p .TarBz2 ['b', 'z', '2'] rfl,
    fun p => from_path_guarded_iff p .TarXz ['x', 'z'] rfl,
    fun p => from_path_guarded_iff p .TarLz ['l', 'z'] rfl,
    fun p => from_path_guarded_iff p .TarLzma ['l', 'z', 'm', 'a'] rfl,
    fun p => from_path_guarded_iff p .TarZst ['z', 's', 't'] rfl,
    rfl, rfl, rfl⟩

end UvModel

namespace UvSpec

open UvModel (Str asciiLower)

/-- Modelled from the spec: package-name normalization (`normalize_name`,
spec 4.1), which is not part of this excerpt: ASCII case-fold plus folding
of `_` and `.` separators to `-`. -/
def normalizeName (s : Str) : Str :=
  s.map fun c =>
    let d := asciiLower c
    if d = '_' ∨ d = '.' then '-' else d

/-- Modelled from the spec: a resolved package version, with the release
part abstract and an optional local version segment (for example `+foo`). -/
structure Version where
  release : List Nat
  localSegment : Option Str
deriving DecidableEq, Repr

/-- Strip the local version segment from a version. -/
def stripLocal (v : Version) : Version :=
  { v with localSegment := none }

/-- Modelled from the spec: a version-constraint expression; the engine only
ever synthesizes lower bounds (`>=`), every other constraint shape is kept
abstract as its text. -/
inductive VersionSpec where
  | ge (v : Version)
  | other (text : Str)
deriving DecidableEq, Repr

/-- Modelled from the spec: a URL, with any embedded credentials
(`https://<token>@host/...`) held separately so that stripping them is
expressible. -/
structure Url where
  scheme : Str
  userinfo : Option Str
  host : Str
  rest : Str
deriving DecidableEq, Repr

/-- Remove embedded credentials from a URL. -/
def stripCredentials (u : Url) : Url :=
  { u with userinfo := none }

/-- Modelled from the spec: the closed set of requirement source kinds
(spec section 3). -/
inductive SourceKind where
  | registry
  | git (u : Url)
  | url (u : Url)
  | path (p : Str) (editable : Bool)
  | workspace
deriving DecidableEq, Repr

/-- Modelled from the spec: one dependency declaration as persisted in a
declaration site (spec section 3): the name as written, the marker text
(identity is exact marker equality), the extras, and the optional version
constraint. -/
structure Requirement where
  name : Str
  marker : Option Str
  extras : List Str
  constraint : Option VersionSpec
deriving DecidableEq, Repr

/-- Modelled from the spec: the user-supplied specifier for one `add`,
after parsing: name, marker, extras, the explicit version constraint if one
was written, and the source kind. -/
structure IncomingSpec where
  name : Str
  marker : Option Str
  extras : List Str
  explicitConstraint : Option VersionSpec
  source : SourceKind
deriving DecidableEq, Repr

/-- Identity of declarations (spec section 4.1 `identity_key`): normalized
name equality AND exact marker equality, not marker subsumption. -/
def matchesIncoming (inc : IncomingSpec) (r : Requirement) : Bool :=
  normalizeName r.name = normalizeName inc.name ∧ r.marker = inc.marker

/-- Extras union used when `--raw-sources` updates an existing declaration:
existing extras kept, new ones appended without duplicates. -/
def unionExtras (a b : List Str) : List Str :=
  a ++ b.filter fun x => decide (x ∉ a)

/-- Modelled from the spec: build the requirement to persist (spec section
4.2 steps 3 and 5, section 4.4 step 2).  `existing` is the matched
declaration when this is an in-place update; a lower bound
`>= stripLocal resolved` is synthesized only for a genuinely new,
registry-sourced, non-raw declaration with no explicit constraint. -/
def mkRequirement (inc : IncomingSpec) (existing : Option Requirement)
    (resolved : Version) (raw : Bool) : Requirement :=
  { name := inc.name
    marker := inc.marker
    extras :=
      match existing with
      | some e => if raw then unionExtras e.extras inc.extras else inc.extras
      | none => inc.extras
    constraint :=
      match inc.explicitConstraint with
      | some c => some c
      | none =>
        match existing with
        | some e => e.constraint
        | none =>
          match inc.source with
          | .registry => if raw then none else some (.ge (stripLocal resolved))
          | _ => none }

/-- Lexicographic order on strings, as a Boolean. -/
def leStr : Str → Str → Bool
  | [], _ => true
  | _ :: _, [] => false
  | a :: as, b :: bs =>
    if a < b then true else if b < a then false else leStr as bs

/-- Case-insensitive sort key of an entry (spec section 4.1). -/
def ciKey (r : Requirement) : Str := r.name.map asciiLower

/-- Case-sensitive sort key of an entry (spec section 4.1). -/
def csKey (r : Requirement) : Str := r.name

/-- Adjacent-pairs sortedness of a declaration site under a key. -/
def sortedByB (key : Requirement → Str) : List Requirement → Bool
  | [] => true
  | [_] => true
  | a :: b :: l => leStr (key a) (key b) && sortedByB key (b :: l)

/-- Insert before the first entry whose key is strictly larger (the
sort-preserving insertion of spec section 4.1). -/
def orderedInsertBy (key : Requirement → Str) (r : Requirement) :
    List Requirement → List Requirement
  | [] => [r]
  | x :: xs =>
    if leStr (key r) (key x) then r :: x :: xs
    else x :: orderedInsertBy key r xs

/-- The sort discipline a site already exhibits. -/
inductive SortKind where
  | caseInsensitive
  | caseSensitive
  | unsorted
deriving DecidableEq, Repr

/-- Modelled from the spec: detect the sort discipline of the existing
entries (spec section 4.1); the case-insensitive discipline is checked
first, matching the `sorted_dependencies` test, whose initial site is
sorted under both disciplines and receives case-insensitive insertion. -/
def detectSort (site : List Requirement) : SortKind :=
  if sortedByB ciKey site then .caseInsensitive
  else if sortedByB csKey site then .caseSensitive
  else .unsorted

/-- Insert a genuinely new entry, preserving the detected sort discipline,
appending at the end when the site is unsorted (spec sections 4.1, 4.4). -/
def insertRequirement (site : List Requirement) (r : Requirement) :
    List Requirement :=
  match detectSort site with
  | .caseInsensitive => orderedInsertBy ciKey r site
  | .caseSensitive => orderedInsertBy csKey r site
  | .unsorted => site ++ [r]

/-- Index of the first entry satisfying a predicate. -/
def findIdxOpt (p : α → Bool) : List α → Option Nat
  | [] => none
  | a :: l => if p a then some 0 else (findIdxOpt p l).map (· + 1)

/-- Modelled from the spec: the merge engine for one declaration site (spec
section 4.4): replace in place on an exact identity match, otherwise insert
per the sort-preservation rule. -/
def addToSite (site : List Requirement) (inc : IncomingSpec)
    (resolved : Version) (raw : Bool) : List Requirement :=
  match findIdxOpt (matchesIncoming inc) site with
  | some i => site.set i (mkRequirement inc site[i]? resolved raw)
  | none => insertRequirement site (mkRequirement inc none resolved raw)

end UvSpec

namespace UvSpec

open UvModel (Str asciiLower)

/-- Where a non-registry source is persisted (spec section 4.2 steps 3-4):
inlined in the requirement text under `--raw-sources`, otherwise as a
Source Table entry. -/
inductive PersistedForm where
  | inlined (u : Url)
  | sourceTable (u : Url)
deriving DecidableEq, Repr

/-- Modelled from the spec: how a URL-bearing source is persisted (spec
section 4.2 step 4): credentials are stripped from what goes to the Source
Table unless `raw` is set, in which case the URL stays inlined verbatim. -/
def persistSource (raw : Bool) (u : Url) : PersistedForm :=
  if raw then .inlined u else .sourceTable (stripCredentials u)

/-- The credentials visible in what was persisted. -/
def credentialsOf : PersistedForm → Option Str
  | .inlined u => u.userinfo
  | .sourceTable u => u.userinfo

/-- Modelled from the spec: the Source Table entry produced by one `add`
(spec section 4.2 step 4): none for registry sources or under
`--raw-sources` (where the URL stays inlined), otherwise the non-registry
source keyed by the normalized name, with URL credentials stripped. -/
def sourceFor (inc : IncomingSpec) (raw : Bool) : Option (Str × SourceKind) :=
  if raw then none
  else
    match inc.source with
    | .registry => none
    | .git u => some (normalizeName inc.name, .git (stripCredentials u))
    | .url u => some (normalizeName inc.name, .url (stripCredentials u))
    | .path p e => some (normalizeName inc.name, .path p e)
    | .workspace => some (normalizeName inc.name, .workspace)

/-- The inlined requirement source under `--raw-sources` (spec section 4.2
step 3): the URL is retained verbatim, credentials included. -/
def inlineSpec (inc : IncomingSpec) (raw : Bool) : Option Url :=
  if raw then
    match inc.source with
    | .git u => some u
    | .url u => some u
    | _ => none
  else none

/-- Upsert into the Source Table: replace the entry with the same key in
place, append otherwise. -/
def upsert : List (Str × SourceKind) → Str → SourceKind → List (Str × SourceKind)
  | [], k, s => [(k, s)]
  | (k₀, s₀) :: rest, k, s =>
    if k₀ = k then (k, s) :: rest else (k₀, s₀) :: upsert rest k s

/-- Modelled from the spec: the mutable part of the manifest one `add`
touches: the target declaration site and the Source Table. -/
structure Manifest where
  deps : List Requirement
  sources : List (Str × SourceKind)
deriving DecidableEq, Repr

/-- Modelled from the spec: one `add` against a manifest: merge into the
target site (spec section 4.4) and update the Source Table (spec section
4.2 step 4). -/
def addManifest (m : Manifest) (inc : IncomingSpec) (resolved : Version)
    (raw : Bool) : Manifest :=
  { deps := addToSite m.deps inc resolved raw
    sources :=
      match sourceFor inc raw with
      | none => m.sources
      | some (k, s) => upsert m.sources k s }

end UvSpec

namespace UvSpec

open UvModel (Str asciiLower)

theorem leStr_total : ∀ a b : Str, leStr a b = true ∨ leStr b a = true := by
  intro a
  induction a with
  | nil => intro b; exact Or.inl rfl
  | cons x xs ih =>
    intro b
    cases b with
    | nil => exact Or.inr rfl
    | cons y ys =>
      by_cases hxy : x < y
      · exact Or.inl (by simp [leStr, hxy])
      by_cases hyx : y < x
      · exact Or.inr (by simp [leStr, hyx])
      cases ih ys with
      | inl h => exact Or.inl (by simp [leStr, hxy, hyx, h])
      | inr h => exact Or.inr (by simp [leStr, hxy, hyx, h])

theorem sortedByB_cons {key : Requirement → Str} {a b : Requirement}
    {l : List Requirement} :
    sortedByB key (a :: b :: l) =
      (leStr (key a) (key b) && sortedByB key (b :: l)) := rfl

theorem sortedByB_orderedInsert (key : Requirement → Str) (r : Requirement) :
    ∀ l : List Requirement, sortedByB key l = true →
      sortedByB key (orderedInsertBy key r l) = true := by
  intro l
  induction l with
  | nil => intro _; rfl
  | cons x xs ih =>
    intro hs
    unfold orderedInsertBy
    by_cases hle : leStr (key r) (key x) = true
    · rw [if_pos hle]
      rw [sortedByB_cons, hle, hs]
      rfl
    · rw [if_neg hle]
      have hxr : leStr (key x) (key r) = true :=
        (leStr_total (key r) (key x)).resolve_left hle
      cases xs with
      | nil =>
        simp [orderedInsertBy, sortedByB, hxr]
      | cons y ys =>
        rw [sortedByB_cons] at hs
        simp only [Bool.and_eq_true] at hs
        obtain ⟨hxy, hys⟩ := hs
        have hrec := ih hys
        unfold orderedInsertBy
        by_cases hry : leStr (key r) (key y) = true
        · rw [if_pos hry]
          rw [sortedByB_cons, hxr]
          rw [sortedByB_cons, hry, hys]
          rfl
        · rw [if_neg hry]
          unfold orderedInsertBy at hrec
          rw [if_neg hry] at hrec
          rw [sortedByB_cons, hxy, hrec]
          rfl

theorem orderedInsertBy_decomp (key : Requirement → Str) (r : Requirement) :
    ∀ l : List Requirement, ∃ pre suf, l = pre ++ suf ∧
      orderedInsertBy key r l = pre ++ r :: suf := by
  intro l
  induction l with
  | nil => exact ⟨[], [], rfl, rfl⟩
  | cons x xs ih =>
    by_cases hle : leStr (key r) (key x) = true
    · exact ⟨[], x :: xs, rfl, by simp [orderedInsertBy, hle]⟩
    · obtain ⟨pre, suf, hdec, hins⟩ := ih
      exact ⟨x :: pre, suf, by simp [hdec], by simp [orderedInsertBy, hle, hins]⟩

theorem insertRequirement_decomp (site : List Requirement) (r : Requirement) :
    ∃ pre suf, site = pre ++ suf ∧
      insertRequirement site r = pre ++ r :: suf := by
  unfold insertRequirement
  cases detectSort site with
  | caseInsensitive => exact orderedInsertBy_decomp ciKey r site
  | caseSensitive => exact orderedInsertBy_decomp csKey r site
  | unsorted => exact ⟨site, [], by simp, by simp⟩

theorem findIdxOpt_lt_length {p : α → Bool} :
    ∀ {l : List α} {i : Nat}, findIdxOpt p l = some i → i < l.length := by
  intro l
  induction l with
  | nil => intro i h; cases h
  | cons a l ih =>
    intro i h
    unfold findIdxOpt at h
    by_cases ha : p a = true
    · rw [if_pos ha] at h
      obtain rfl := Option.some.inj h
      simp
    · rw [if_neg ha] at h
      cases hrec : findIdxOpt p l with
      | none => rw [hrec] at h; cases h
      | some j =>
        rw [hrec] at h
        obtain rfl := Option.some.inj h
        have := ih hrec
        simp
        omega

theorem findIdxOpt_getElem {p : α → Bool} :
    ∀ {l : List α} {i : Nat}, findIdxOpt p l = some i →
      ∃ a, l[i]? = some a ∧ p a = true := by
  intro l
  induction l with
  | nil => intro i h; cases h
  | cons a l ih =>
    intro i h
    unfold findIdxOpt at h
    by_cases ha : p a = true
    · rw [if_pos ha] at h
      obtain rfl := Option.some.inj h
      exact ⟨a, by simp, ha⟩
    · rw [if_neg ha] at h
      cases hrec : findIdxOpt p l with
      | none => rw [hrec] at h; cases h
      | some j =>
        rw [hrec] at h
        obtain rfl := Option.some.inj h
        obtain ⟨b, hb, hpb⟩ := ih hrec
        exact ⟨b, by simpa using hb, hpb⟩

theorem findIdxOpt_set {p : α → Bool} :
    ∀ {l : List α} {i : Nat} {new : α}, findIdxOpt p l = some i →
      p new = true → findIdxOpt p (l.set i new) = some i := by
  intro l
  induction l with
  | nil => intro i new h _; cases h
  | cons a l ih =>
    intro i new h hnew
    unfold findIdxOpt at h
    by_cases ha : p a = true
    · rw [if_pos ha] at h
      obtain rfl := Option.some.inj h
      simp [List.set, findIdxOpt, hnew]
    · rw [if_neg ha] at h
      cases hrec : findIdxOpt p l with
      | none => rw [hrec] at h; cases h
      | some j =>
        rw [hrec] at h
        obtain rfl := Option.some.inj h
        show findIdxOpt p ((a :: l).set (j + 1) new) = some (j + 1)
        have : (a :: l).set (j + 1) new = a :: l.set j new := rfl
        rw [this]
        unfold findIdxOpt
        rw [if_neg ha, ih hrec hnew]
        rfl

theorem findIdxOpt_none_forall {p : α → Bool} :
    ∀ {l : List α}, findIdxOpt p l = none → ∀ a ∈ l, p a = false := by
  intro l
  induction l with
  | nil => intro _ a ha; cases ha
  | cons b l ih =>
    intro h a ha
    unfold findIdxOpt at h
    by_cases hb : p b = true
    · rw [if_pos hb] at h; cases h
    · rw [if_neg hb] at h
      cases ha with
      | head => exact Bool.eq_false_iff.mpr hb
      | tail _ hmem =>
        cases hrec : findIdxOpt p l with
        | none => exact ih hrec a hmem
        | some j => rw [hrec] at h; cases h

theorem findIdxOpt_middle {p : α → Bool} {r : α} (hr : p r = true) :
    ∀ (pre suf : List α), (∀ a ∈ pre, p a = false) →
      findIdxOpt p (pre ++ r :: suf) = some pre.length ∧
        (pre ++ r :: suf)[pre.length]? = some r := by
  intro pre
  induction pre with
  | nil => intro suf _; exact ⟨by simp [findIdxOpt, hr], by simp⟩
  | cons a pre ih =>
    intro suf hall
    have ha : p a = false := hall a (List.mem_cons_self a pre)
    obtain ⟨h1, h2⟩ := ih suf fun b hb => hall b (List.mem_cons_of_mem a hb)
    constructor
    · show findIdxOpt p (a :: (pre ++ r :: suf)) = some (pre.length + 1)
      unfold findIdxOpt
      rw [if_neg (by simp [ha]), h1]
      rfl
    · simpa using h2

theorem getElem?_set_self {l : List α} :
    ∀ {i : Nat} {a : α}, i < l.length → (l.set i a)[i]? = some a := by
  induction l with
  | nil => intro i a h; cases h
  | cons b l ih =>
    intro i a h
    cases i with
    | zero => simp
    | succ j =>
      show (b :: l.set j a)[j + 1]? = some a
      simpa using ih (by simpa using h)

theorem set_of_getElem? {l : List α} :
    ∀ {i : Nat} {a : α}, l[i]? = some a → l.set i a = l := by
  induction l with
  | nil => intro i a h; cases h
  | cons b l ih =>
    intro i a h
    cases i with
    | zero =>
      simp at h
      subst h
      rfl
    | succ j =>
      have : l[j]? = some a := by simpa using h
      show b :: l.set j a = b :: l
      rw [ih this]

theorem unionExtras_absorb {u b : List Str} (h : ∀ x ∈ b, x ∈ u) :
    unionExtras u b = u := by
  unfold unionExtras
  have : b.filter (fun x => decide (x ∉ u)) = [] := by
    rw [List.filter_eq_nil_iff]
    intro x hx
    simp [h x hx]
  rw [this, List.append_nil]

theorem upsert_idem : ∀ (t : List (Str × SourceKind)) (k : Str) (s : SourceKind),
    upsert (upsert t k s) k s = upsert t k s := by
  intro t
  induction t with
  | nil => intro k s; simp [upsert]
  | cons p rest ih =>
    intro k s
    obtain ⟨k₀, s₀⟩ := p
    by_cases hk : k₀ = k
    · subst hk
      simp [upsert]
    · simp only [upsert, if_neg hk]
      rw [ih]

end UvSpec

namespace UvSpec

open UvModel (Str asciiLower)

theorem mem_unionExtras_right {a b : List Str} {x : Str} (h : x ∈ b) :
    x ∈ unionExtras a b := by
  unfold unionExtras
  by_cases hx : x ∈ a
  · exact List.mem_append_left _ hx
  · refine List.mem_append_right _ ?_
    rw [List.mem_filter]
    exact ⟨h, by simp [hx]⟩

theorem matchesIncoming_mkRequirement (inc : IncomingSpec)
    (existing : Option Requirement) (v : Version) (raw : Bool) :
    matchesIncoming inc (mkRequirement inc existing v raw) = true := by
  simp [matchesIncoming, mkRequirement]

theorem mkRequirement_stable (inc : IncomingSpec)
    (existing : Option Requirement) (v : Version) (raw : Bool) :
    mkRequirement inc (some (mkRequirement inc existing v raw)) v raw
      = mkRequirement inc existing v raw := by
  unfold mkRequirement
  congr 1
  · cases hraw : raw with
    | false => cases existing <;> simp
    | true =>
      simp only [if_true]
      cases existing with
      | none =>
        simp only []
        exact unionExtras_absorb fun x hx => hx
      | some e =>
        simp only [if_true]
        exact unionExtras_absorb fun x hx => mem_unionExtras_right hx
  · cases hc : inc.explicitConstraint with
    | some c => rfl
    | none => rfl

end UvSpec

namespace UvSpec

open UvModel (Str asciiLower)

/-- C3: requirement identity is strict name+marker equality.  An incoming
requirement replaces an existing entry in place (preserving its position)
exactly when some entry has the same normalized name AND an exactly equal
marker; identity is `matchesIncoming`, which demands exact marker equality
and never marker subsumption, so a merely narrower or wider marker yields a
new, separate entry with every existing entry kept in order. -/
theorem requirement_identity_strict :
    (∀ (inc : IncomingSpec) (r : Requirement),
      matchesIncoming inc r = true ↔
        (normalizeName r.name = normalizeName inc.name ∧ r.marker = inc.marker))
    ∧ (∀ (site : List Requirement) (inc : IncomingSpec) (v : Version)
        (raw : Bool) (i : Nat),
        findIdxOpt (matchesIncoming inc) site = some i →
          addToSite site inc v raw
            = site.set i (mkRequirement inc site[i]? v raw))
    ∧ (∀ (site : List Requirement) (inc : IncomingSpec) (v : Version)
        (raw : Bool),
        findIdxOpt (matchesIncoming inc) site = none →
          ∃ pre suf, site = pre ++ suf ∧
            addToSite site inc v raw
              = pre ++ mkRequirement inc none v raw :: suf) := by
  refine ⟨?_, ?_, ?_⟩
  · intro inc r
    simp [matchesIncoming]
  · intro site inc v raw i h
    unfold addToSite
    rw [h]
  · intro site inc v raw h
    unfold addToSite
    rw [h]
    exact insertRequirement_decomp site (mkRequirement inc none v raw)

/-- Witness for C3: a site with one entry.  An incoming requirement with
the same name and marker is matched at index 0 and replaced in place; one
with the same name but a different marker is not matched and is added as a
separate entry. -/
theorem requirement_identity_strict_witness :
    (findIdxOpt
        (matchesIncoming ⟨['a'], none, [], none, .registry⟩)
        [⟨['a'], none, [], none⟩] = some 0
      ∧ addToSite [⟨['a'], none, [], none⟩]
          ⟨['a'], none, [], none, .registry⟩ ⟨[1], none⟩ false
        = [(⟨['a'], none, [], none⟩ : Requirement)].set 0
            (mkRequirement ⟨['a'], none, [], none, .registry⟩
              ([(⟨['a'], none, [], none⟩ : Requirement)])[0]? ⟨[1], none⟩ false))
    ∧ (findIdxOpt
        (matchesIncoming ⟨['a'], some ['m'], [], none, .registry⟩)
        [⟨['a'], none, [], none⟩] = none
      ∧ ∃ pre suf, [(⟨['a'], none, [], none⟩ : Requirement)] = pre ++ suf ∧
          addToSite [⟨['a'], none, [], none⟩]
            ⟨['a'], some ['m'], [], none, .registry⟩ ⟨[1], none⟩ false
          = pre ++ mkRequirement ⟨['a'], some ['m'], [], none, .registry⟩
              none ⟨[1], none⟩ false :: suf) :=
  ⟨⟨by decide,
    requirement_identity_strict.2.1 [⟨['a'], none, [], none⟩]
      ⟨['a'], none, [], none, .registry⟩ ⟨[1], none⟩ false 0 (by decide)⟩,
   ⟨by decide,
    requirement_identity_strict.2.2 [⟨['a'], none, [], none⟩]
      ⟨['a'], some ['m'], [], none, .registry⟩ ⟨[1], none⟩ false (by decide)⟩⟩

end UvSpec

namespace UvSpec

open UvModel (Str asciiLower)

theorem addToSite_idem (site : List Requirement) (inc : IncomingSpec)
    (v : Version) (raw : Bool) :
    addToSite (addToSite site inc v raw) inc v raw
      = addToSite site inc v raw := by
  cases hF : findIdxOpt (matchesIncoming inc) site with
  | some i =>
    have hlt := findIdxOpt_lt_length hF
    obtain ⟨a, ha, hpa⟩ := findIdxOpt_getElem hF
    have hfirst : addToSite site inc v raw
        = site.set i (mkRequirement inc site[i]? v raw) := by
      unfold addToSite
      rw [hF]
    have hm : matchesIncoming inc (mkRequirement inc site[i]? v raw) = true :=
      matchesIncoming_mkRequirement inc site[i]? v raw
    have hF2 : findIdxOpt (matchesIncoming inc)
        (site.set i (mkRequirement inc site[i]? v raw)) = some i :=
      findIdxOpt_set hF hm
    have hget : (site.set i (mkRequirement inc site[i]? v raw))[i]?
        = some (mkRequirement inc site[i]? v raw) :=
      getElem?_set_self hlt
    rw [hfirst]
    unfold addToSite
    rw [hF2]
    show (site.set i (mkRequirement inc site[i]? v raw)).set i
        (mkRequirement inc
          (site.set i (mkRequirement inc site[i]? v raw))[i]? v raw)
      = site.set i (mkRequirement inc site[i]? v raw)
    rw [hget, ha, mkRequirement_stable, List.set_set]
  | none =>
    have hall := findIdxOpt_none_forall hF
    have hfirst : addToSite site inc v raw
        = insertRequirement site (mkRequirement inc none v raw) := by
      unfold addToSite
      rw [hF]
    obtain ⟨pre, suf, hd, hins⟩ :=
      insertRequirement_decomp site (mkRequirement inc none v raw)
    have hm : matchesIncoming inc (mkRequirement inc none v raw) = true :=
      matchesIncoming_mkRequirement inc none v raw
    have hallpre : ∀ b ∈ pre, matchesIncoming inc b = false := by
      intro b hb
      exact hall b (hd ▸ List.mem_append_left suf hb)
    obtain ⟨hF2, hget⟩ := findIdxOpt_middle hm pre suf hallpre
    rw [hfirst, hins]
    unfold addToSite
    rw [hF2]
    show (pre ++ mkRequirement inc none v raw :: suf).set pre.length
        (mkRequirement inc
          (pre ++ mkRequirement inc none v raw :: suf)[pre.length]? v raw)
      = pre ++ mkRequirement inc none v raw :: suf
    rw [hget, mkRequirement_stable]
    exact set_of_getElem? hget

/-- C5: idempotence of `add`.  Running `add` twice with identical arguments
yields a manifest after the second call identical to the manifest after the
first call: the second call finds the exact identity it inserted and
replaces it with itself, so no duplicate entry is created and nothing
changes. -/
theorem add_idempotent (m : Manifest) (inc : IncomingSpec) (v : Version)
    (raw : Bool) :
    addManifest (addManifest m inc v raw) inc v raw
      = addManifest m inc v raw := by
  unfold addManifest
  cases hS : sourceFor inc raw with
  | none => simp only [addToSite_idem]
  | some ks =>
    obtain ⟨k, s⟩ := ks
    simp only [addToSite_idem, upsert_idem]

end UvSpec

namespace UvSpec

open UvModel (Str asciiLower)

/-- Counterexample for C6 as stated: a site whose entries are sorted under
BOTH disciplines (same name in different cases, with distinct markers) is
detected as case-insensitively sorted, so a genuinely new entry is placed
by the case-insensitive key and the case-sensitive order is broken, even
though the site was case-sensitively sorted before the `add`. -/
theorem sort_preservation_cs_counterexample :
    sortedByB csKey
        [⟨['F', 'o', 'o'], none, [], none⟩,
         ⟨['f', 'o', 'o'], some ['m'], [], none⟩] = true
    ∧ findIdxOpt
        (matchesIncoming ⟨['f', 'O', 'Z'], none, [], none, .registry⟩)
        [⟨['F', 'o', 'o'], none, [], none⟩,
         ⟨['f', 'o', 'o'], some ['m'], [], none⟩] = none
    ∧ sortedByB csKey
        (addToSite
          [⟨['F', 'o', 'o'], none, [], none⟩,
           ⟨['f', 'o', 'o'], some ['m'], [], none⟩]
          ⟨['f', 'O', 'Z'], none, [], none, .registry⟩
          ⟨[1], none⟩ false) = false :=
  ⟨by decide, by decide, by decide⟩

/-- C6 as amended: a case-insensitively sorted site stays case-insensitively
sorted after insertion of a genuinely new entry; a case-sensitively sorted
site that is NOT also case-insensitively sorted (so the detected discipline
is the case-sensitive one) stays case-sensitively sorted; and when neither
discipline holds the new entry is appended at the end without reordering. -/
theorem sort_discipline_preservation (site : List Requirement)
    (inc : IncomingSpec) (v : Version) (raw : Bool)
    (hnew : findIdxOpt (matchesIncoming inc) site = none) :
    (sortedByB ciKey site = true →
      sortedByB ciKey (addToSite site inc v raw) = true)
    ∧ (sortedByB ciKey site = false → sortedByB csKey site = true →
      sortedByB csKey (addToSite site inc v raw) = true)
    ∧ (sortedByB ciKey site = false → sortedByB csKey site = false →
      addToSite site inc v raw = site ++ [mkRequirement inc none v raw]) := by
  have hfirst : addToSite site inc v raw
      = insertRequirement site (mkRequirement inc none v raw) := by
    unfold addToSite
    rw [hnew]
  refine ⟨?_, ?_, ?_⟩
  · intro hci
    rw [hfirst]
    simp only [insertRequirement, detectSort, hci, if_true]
    exact sortedByB_orderedInsert ciKey _ site hci
  · intro hci hcs
    rw [hfirst]
    simp only [insertRequirement, detectSort, hci, hcs,
      Bool.false_eq_true, if_false, if_true]
    exact sortedByB_orderedInsert csKey _ site hcs
  · intro hci hcs
    rw [hfirst]
    simp only [insertRequirement, detectSort, hci, hcs,
      Bool.false_eq_true, if_false]

/-- Witness for C6 as amended: the three disciplines at concrete sites: a
case-insensitively sorted site, a case-sensitively (but not
case-insensitively) sorted site, and an unsorted site. -/
theorem sort_discipline_preservation_witness :
    (sortedByB ciKey
      (addToSite
        [⟨['a'], none, [], none⟩, ⟨['c'], none, [], none⟩]
        ⟨['b'], none, [], none, .registry⟩ ⟨[1], none⟩ false) = true)
    ∧ (sortedByB csKey
      (addToSite
        [⟨['P'], none, [], none⟩, ⟨['i'], none, [], none⟩]
        ⟨['b'], none, [], none, .registry⟩ ⟨[1], none⟩ false) = true)
    ∧ (addToSite
        [⟨['c'], none, [], none⟩, ⟨['a'], none, [], none⟩]
        ⟨['b'], none, [], none, .registry⟩ ⟨[1], none⟩ false
      = [⟨['c'], none, [], none⟩, ⟨['a'], none, [], none⟩]
          ++ [mkRequirement ⟨['b'], none, [], none, .registry⟩
                none ⟨[1], none⟩ false]) :=
  ⟨(sort_discipline_preservation
      [⟨['a'], none, [], none⟩, ⟨['c'], none, [], none⟩]
      ⟨['b'], none, [], none, .registry⟩ ⟨[1], none⟩ false (by decide)).1
    (by decide),
   (sort_discipline_preservation
      [⟨['P'], none, [], none⟩, ⟨['i'], none, [], none⟩]
      ⟨['b'], none, [], none, .registry⟩ ⟨[1], none⟩ false (by decide)).2.1
    (by decide) (by decide),
   (sort_discipline_preservation
      [⟨['c'], none, [], none⟩, ⟨['a'], none, [], none⟩]
      ⟨['b'], none, [], none, .registry⟩ ⟨[1], none⟩ false (by decide)).2.2
    (by decide) (by decide)⟩

/-- C4: lower-bound synthesis.  For an `add` of a registry-sourced package
with no explicit version constraint: a genuinely new declaration is
persisted as the incoming name with constraint `>= stripLocal resolved`
(the local version segment stripped); when any declaration with that exact
identity already exists, the existing (possibly absent) constraint is kept
untouched; and under `--raw-sources` no lower bound is injected. -/
theorem lower_bound_synthesis (inc : IncomingSpec) (v : Version)
    (h1 : inc.explicitConstraint = none) (h2 : inc.source = .registry) :
    ((mkRequirement inc none v false).name = inc.name
      ∧ (mkRequirement inc none v false).constraint
          = some (.ge (stripLocal v))
      ∧ (stripLocal v).localSegment = none)
    ∧ (∀ (e : Requirement) (raw : Bool),
        (mkRequirement inc (some e) v raw).constraint = e.constraint)
    ∧ (mkRequirement inc none v true).constraint = none := by
  refine ⟨⟨rfl, ?_, rfl⟩, ?_, ?_⟩
  · simp [mkRequirement, h1, h2]
  · intro e raw
    simp [mkRequirement, h1]
  · simp [mkRequirement, h1, h2]

/-- Witness for C4: the resolved version `1.2.3+foo` yields the persisted
constraint `>= 1.2.3`, with the local segment stripped, mirroring the
`add_lower_bound_local` test. -/
theorem lower_bound_synthesis_witness :
    ((⟨['p'], none, [], none, .registry⟩ : IncomingSpec).explicitConstraint
        = none
      ∧ (⟨['p'], none, [], none, .registry⟩ : IncomingSpec).source
        = .registry)
    ∧ ((mkRequirement ⟨['p'], none, [], none, .registry⟩ none
          ⟨[1, 2, 3], some ['f', 'o', 'o']⟩ false).name = ['p']
      ∧ (mkRequirement ⟨['p'], none, [], none, .registry⟩ none
          ⟨[1, 2, 3], some ['f', 'o', 'o']⟩ false).constraint
        = some (.ge (stripLocal ⟨[1, 2, 3], some ['f', 'o', 'o']⟩))
      ∧ (stripLocal ⟨[1, 2, 3], some ['f', 'o', 'o']⟩).localSegment = none)
    ∧ (∀ (e : Requirement) (raw : Bool),
        (mkRequirement ⟨['p'], none, [], none, .registry⟩ (some e)
          ⟨[1, 2, 3], some ['f', 'o', 'o']⟩ raw).constraint = e.constraint)
    ∧ (mkRequirement ⟨['p'], none, [], none, .registry⟩ none
        ⟨[1, 2, 3], some ['f', 'o', 'o']⟩ true).constraint = none :=
  ⟨⟨rfl, rfl⟩,
    lower_bound_synthesis ⟨['p'], none, [], none, .registry⟩
      ⟨[1, 2, 3], some ['f', 'o', 'o']⟩ rfl rfl⟩

end UvSpec

namespace UvSpec

open UvModel (Str asciiLower)

/-- The phases of the transaction coordinator state machine (spec section
4.6). -/
inductive TxPhase where
  | clean
  | mutating
  | resolving
  | committed
  | rolledBack
deriving DecidableEq, Repr

/-- Modelled from the spec: the state of one `add` transaction: the current
phase, the manifest bytes on persistent storage, the pristine snapshot
taken on entering `mutating`, and the in-memory mutated manifest. -/
structure TxState where
  phase : TxPhase
  storage : Str
  snapshot : Str
  mem : Str
deriving DecidableEq, Repr

/-- Modelled from the spec: the fixed environment of one transaction: the
in-memory mutation, whether the external resolver succeeds, whether the
external build/sync succeeds, and the `--frozen` flag. -/
structure TxEnv where
  mutate : Str → Str
  resolveOk : Bool
  buildOk : Bool
  frozen : Bool

/-- Modelled from the spec: one step of the transaction coordinator (spec
section 4.6): `clean` snapshots and mutates in memory; `mutating` commits
directly under `--frozen`, otherwise resolves; `resolving` commits the
mutated manifest on success and on resolution or build failure restores the
pristine snapshot, discarding the in-memory mutation. -/
def txStep (env : TxEnv) (s : TxState) : TxState :=
  match s.phase with
  | .clean =>
    { s with phase := .mutating, snapshot := s.storage,
             mem := env.mutate s.storage }
  | .mutating =>
    if env.frozen then { s with phase := .committed, storage := s.mem }
    else { s with phase := .resolving }
  | .resolving =>
    if env.resolveOk && env.buildOk then
      { s with phase := .committed, storage := s.mem }
    else
      { s with phase := .rolledBack, storage := s.snapshot, mem := s.snapshot }
  | .committed => s
  | .rolledBack => s

/-- Run the coordinator for a number of steps. -/
def txRun (env : TxEnv) : Nat → TxState → TxState
  | 0, s => s
  | n + 1, s => txRun env n (txStep env s)

/-- The initial state of one `add` against manifest bytes `m0`. -/
def txInit (m0 : Str) : TxState := ⟨.clean, m0, m0, m0⟩

/-- The rollback invariant: before commit the storage is untouched and the
snapshot is pristine, and a rolled-back transaction has pristine storage. -/
abbrev txInv (m0 : Str) (s : TxState) : Prop :=
  (s.phase = .clean → s.storage = m0)
    ∧ ((s.phase = .mutating ∨ s.phase = .resolving) →
        s.storage = m0 ∧ s.snapshot = m0)
    ∧ (s.phase = .rolledBack → s.storage = m0)


theorem txInv_step (env : TxEnv) (m0 : Str) (s : TxState)
    (h : txInv m0 s) : txInv m0 (txStep env s) := by
  obtain ⟨ph, st, sn, mem⟩ := s
  obtain ⟨hclean, hmid, hrb⟩ := h
  cases ph with
  | clean =>
    have hst : st = m0 := hclean rfl
    show txInv m0 ⟨.mutating, st, st, env.mutate st⟩
    exact And.intro (fun hc => nomatch hc)
      (And.intro (fun _ => ⟨hst, hst⟩) (fun hc => nomatch hc))
  | mutating =>
    obtain ⟨hst, hsn⟩ := hmid (Or.inl rfl)
    by_cases hf : env.frozen = true
    · have hstep : txStep env ⟨.mutating, st, sn, mem⟩
          = ⟨.committed, mem, sn, mem⟩ := by
        simp [txStep, hf]
      rw [hstep]
      exact And.intro (fun hc => nomatch hc)
        (And.intro
          (fun hc => hc.elim (fun hc => nomatch hc) (fun hc => nomatch hc))
          (fun hc => nomatch hc))
    · have hstep : txStep env ⟨.mutating, st, sn, mem⟩
          = ⟨.resolving, st, sn, mem⟩ := by
        simp [txStep, hf]
      rw [hstep]
      exact And.intro (fun hc => nomatch hc)
        (And.intro (fun _ => ⟨hst, hsn⟩) (fun hc => nomatch hc))
  | resolving =>
    obtain ⟨hst, hsn⟩ := hmid (Or.inr rfl)
    by_cases hok : (env.resolveOk && env.buildOk) = true
    · have hstep : txStep env ⟨.resolving, st, sn, mem⟩
          = ⟨.committed, mem, sn, mem⟩ := by
        simp [txStep, hok]
      rw [hstep]
      exact And.intro (fun hc => nomatch hc)
        (And.intro
          (fun hc => hc.elim (fun hc => nomatch hc) (fun hc => nomatch hc))
          (fun hc => nomatch hc))
    · have hstep : txStep env ⟨.resolving, st, sn, mem⟩
          = ⟨.rolledBack, sn, sn, sn⟩ := by
        simp [txStep, hok]
      rw [hstep]
      exact And.intro (fun hc => nomatch hc)
        (And.intro
          (fun hc => hc.elim (fun hc => nomatch hc) (fun hc => nomatch hc))
          (fun _ => hsn))
  | committed =>
    show txInv m0 ⟨.committed, st, sn, mem⟩
    exact And.intro (fun hc => nomatch hc)
      (And.intro
        (fun hc => hc.elim (fun hc => nomatch hc) (fun hc => nomatch hc))
        (fun hc => nomatch hc))
  | rolledBack =>
    show txInv m0 ⟨.rolledBack, st, sn, mem⟩
    exact And.intro (fun hc => nomatch hc)
      (And.intro
        (fun hc => hc.elim (fun hc => nomatch hc) (fun hc => nomatch hc))
        (fun _ => hrb rfl))

theorem txInv_run (env : TxEnv) (m0 : Str) :
    ∀ (n : Nat) (s : TxState), txInv m0 s → txInv m0 (txRun env n s) := by
  intro n
  induction n with
  | zero => intro s h; exact h
  | succ k ih => intro s h; exact ih (txStep env s) (txInv_step env m0 s h)

/-- C1: rollback atomicity.  First, any run of the coordinator that ends
rolled back (its resolution or build step failed) leaves the manifest bytes
on persistent storage identical to the bytes before the call.  Second, a
non-frozen `add` whose resolver or build fails reaches exactly the
rolled-back state with pristine storage in three steps, the in-memory
mutation discarded. -/
theorem rollback_atomicity :
    (∀ (env : TxEnv) (m0 : Str) (n : Nat),
      (txRun env n (txInit m0)).phase = .rolledBack →
        (txRun env n (txInit m0)).storage = m0)
    ∧ (∀ (env : TxEnv) (m0 : Str),
        env.frozen = false →
        (env.resolveOk = false ∨ env.buildOk = false) →
        txRun env 3 (txInit m0) = ⟨.rolledBack, m0, m0, m0⟩) := by
  constructor
  · intro env m0 n h
    have hinv : txInv m0 (txRun env n (txInit m0)) :=
      txInv_run env m0 n (txInit m0)
        ⟨fun _ => rfl, fun _ => ⟨rfl, rfl⟩, fun _ => rfl⟩
    exact hinv.2.2 h
  · intro env m0 hf hfail
    have hok : (env.resolveOk && env.buildOk) = false := by
      rcases hfail with h | h <;> simp [h]
    show txRun env 2 (txStep env (txInit m0)) = _
    have h1 : txStep env (txInit m0)
        = ⟨.mutating, m0, m0, env.mutate m0⟩ := rfl
    rw [h1]
    show txRun env 1 (txStep env ⟨.mutating, m0, m0, env.mutate m0⟩) = _
    have h2 : txStep env ⟨.mutating, m0, m0, env.mutate m0⟩
        = ⟨.resolving, m0, m0, env.mutate m0⟩ := by
      simp [txStep, hf]
    rw [h2]
    show txStep env ⟨.resolving, m0, m0, env.mutate m0⟩ = _
    simp [txStep, hok]

/-- Witness for C1: a concrete failing environment: the mutation appends a
byte, the resolver fails; after the run the storage is the original
manifest bytes, restored by the rollback. -/
theorem rollback_atomicity_witness :
    ((txRun ⟨fun s => 'x' :: s, false, true, false⟩ 3
        (txInit ['a', 'b'])).phase = .rolledBack →
      (txRun ⟨fun s => 'x' :: s, false, true, false⟩ 3
        (txInit ['a', 'b'])).storage = ['a', 'b'])
    ∧ ((⟨fun s => 'x' :: s, false, true, false⟩ : TxEnv).frozen = false
      ∧ txRun ⟨fun s => 'x' :: s, false, true, false⟩ 3 (txInit ['a', 'b'])
        = ⟨.rolledBack, ['a', 'b'], ['a', 'b'], ['a', 'b']⟩) :=
  ⟨rollback_atomicity.1 ⟨fun s => 'x' :: s, false, true, false⟩ ['a', 'b'] 3,
   ⟨rfl,
    rollback_atomicity.2 ⟨fun s => 'x' :: s, false, true, false⟩ ['a', 'b']
      rfl (Or.inl rfl)⟩⟩

end UvSpec

namespace UvSpec

open UvModel (Str asciiLower)

/-- The failure modes of an `add`/`remove` invocation visible in the test
suite (`crates/uv/tests/it/edit.rs`). -/
inductive OpFailure where
  | resolutionNoSolution
  | buildFailure
  | conflictingRefFlags
  | missingProjectTable
  | nameNotFound
  | selfDependency
deriving DecidableEq, Repr

/-- The process exit code of each failure, as pinned by the test snapshots:
resolution failure exits 1 (`add_error`), a build failure during `add`
exits 2 (`fail_to_add_revert_project`), and flag conflicts
(`add_reject_multiple_git_ref_flags`), a missing `[project]` table,
name-not-found removals and self-dependencies all exit 2. -/
def exitCode : OpFailure → Nat
  | .resolutionNoSolution => 1
  | .buildFailure => 2
  | .conflictingRefFlags => 2
  | .missingProjectTable => 2
  | .nameNotFound => 2
  | .selfDependency => 2

/-- Whether a failure comes from the external resolver or builder. -/
def isExternalFailure : OpFailure → Bool
  | .resolutionNoSolution => true
  | .buildFailure => true
  | _ => false

/-- Whether a failure is a usage/validation error. -/
def isUsageError : OpFailure → Bool
  | .conflictingRefFlags => true
  | .missingProjectTable => true
  | .nameNotFound => true
  | .selfDependency => true
  | _ => false

/-- Counterexample for C2 as stated: a build failure is an external
failure, yet its exit code is 2, not 1 — the `fail_to_add_revert_project`
test snapshots `exit_code: 2` for the failed build of `pytorch==1.0.2` —
so exit code 2 is not reserved for usage/validation errors. -/
theorem exit_code_build_counterexample :
    isExternalFailure .buildFailure = true
    ∧ exitCode .buildFailure = 2
    ∧ exitCode .buildFailure ≠ 1 :=
  ⟨rfl, rfl, by decide⟩

/-- C2 as amended: a resolution failure exits with code 1; a build failure
exits with code 2, the same code as every usage/validation error
(conflicting flags, missing `[project]` table, name not found,
self-dependency), so code 2 is shared between usage errors and build
failures rather than reserved for usage errors. -/
theorem exit_code_discipline :
    exitCode .resolutionNoSolution = 1
    ∧ exitCode .buildFailure = 2
    ∧ exitCode .conflictingRefFlags = 2
    ∧ exitCode .missingProjectTable = 2
    ∧ exitCode .nameNotFound = 2
    ∧ exitCode .selfDependency = 2 :=
  ⟨rfl, rfl, rfl, rfl, rfl, rfl⟩

end UvSpec

namespace UvSpec

open UvModel (Str asciiLower)

/-- Modelled from the spec: the two dev-dependency declaration sites of a
manifest: the legacy `tool.uv.dev-dependencies` list and the
`dependency-groups.dev` list, each present or absent. -/
structure DevSites where
  legacyDev : Option (List Requirement)
  devGroup : Option (List Requirement)
deriving DecidableEq, Repr

/-- Remove every declaration of a package (all marker variants) from one
site. -/
def removePkg (nm : Str) (site : List Requirement) : List Requirement :=
  site.filter fun r => decide (normalizeName r.name ≠ normalizeName nm)

/-- The flag selecting the dev target of a `remove`. -/
inductive DevFlag where
  | dev
  | group (g : Str)
deriving DecidableEq, Repr

/-- Modelled from the spec: dual-site dev removal (spec section 4.4 step
5): removal with `--dev`, or with `--group=dev`, removes the package from
BOTH the legacy list and the `dev` group when they exist; any other group
touches only that group's site. -/
def removeWithFlag (f : DevFlag) (m : DevSites) (nm : Str) : DevSites :=
  match f with
  | .dev =>
    { legacyDev := m.legacyDev.map (removePkg nm)
      devGroup := m.devGroup.map (removePkg nm) }
  | .group g =>
    if g = ['d', 'e', 'v'] then
      { legacyDev := m.legacyDev.map (removePkg nm)
        devGroup := m.devGroup.map (removePkg nm) }
    else
      { m with devGroup := m.devGroup.map (removePkg nm) }

/-- Modelled from the spec: the dev-target selection of `add` (spec
section 4.3 step 3): the legacy site is preferred when it exists and
either already declares the identity or is an explicitly empty list;
otherwise the `dev` group is the single target. -/
def addDev (m : DevSites) (inc : IncomingSpec) (v : Version) (raw : Bool) :
    DevSites :=
  match m.legacyDev with
  | some legacy =>
    if legacy.any (matchesIncoming inc) || legacy.isEmpty then
      { m with legacyDev := some (addToSite legacy inc v raw) }
    else
      { m with devGroup := some (addToSite (m.devGroup.getD []) inc v raw) }
  | none =>
    { m with devGroup := some (addToSite (m.devGroup.getD []) inc v raw) }

theorem removePkg_not_mem (nm : Str) (site : List Requirement) :
    ∀ r ∈ removePkg nm site, normalizeName r.name ≠ normalizeName nm := by
  intro r hr
  unfold removePkg at hr
  rw [List.mem_filter] at hr
  simpa using hr.2

/-- C7: dual-site dev removal.  When both the legacy `dev-dependencies`
list and the `dependency-groups.dev` list exist, `remove` with `--dev` and
`remove` with `--group=dev` behave identically and remove the named
package from BOTH sites (both sites stay present, and no remaining entry
in either carries the removed name); `add` targeting dev, by contrast,
leaves at least one of the two sites untouched. -/
theorem dual_site_dev_removal (m : DevSites) (nm : Str)
    (legacy grp : List Requirement)
    (hl : m.legacyDev = some legacy) (hg : m.devGroup = some grp) :
    (removeWithFlag .dev m nm
      = removeWithFlag (.group ['d', 'e', 'v']) m nm)
    ∧ (removeWithFlag .dev m nm).legacyDev = some (removePkg nm legacy)
    ∧ (removeWithFlag .dev m nm).devGroup = some (removePkg nm grp)
    ∧ (∀ r ∈ removePkg nm legacy, normalizeName r.name ≠ normalizeName nm)
    ∧ (∀ r ∈ removePkg nm grp, normalizeName r.name ≠ normalizeName nm)
    ∧ (∀ (inc : IncomingSpec) (v : Version) (raw : Bool),
        (addDev m inc v raw).legacyDev = m.legacyDev
        ∨ (addDev m inc v raw).devGroup = m.devGroup) := by
  refine ⟨?_, ?_, ?_, removePkg_not_mem nm legacy, removePkg_not_mem nm grp, ?_⟩
  · simp [removeWithFlag]
  · simp [removeWithFlag, hl]
  · simp [removeWithFlag, hg]
  · intro inc v raw
    by_cases hc : (legacy.any (matchesIncoming inc) || legacy.isEmpty) = true
    · refine Or.inr ?_
      simp [addDev, hl, hc]
    · refine Or.inl ?_
      simp [addDev, hl, hc]

/-- Witness for C7: the manifest of the `remove_both_dev` test: `anyio` in
both the legacy list and the `dev` group; after `remove --dev` both sites
are the empty list. -/
theorem dual_site_dev_removal_witness :
    ((⟨some [⟨['a', 'n', 'y', 'i', 'o'], none, [], none⟩],
        some [⟨['a', 'n', 'y', 'i', 'o'], none, [],
          some (.ge ⟨[3, 7, 0], none⟩)⟩]⟩ : DevSites).legacyDev
      = some [⟨['a', 'n', 'y', 'i', 'o'], none, [], none⟩])
    ∧ (removeWithFlag .dev
        ⟨some [⟨['a', 'n', 'y', 'i', 'o'], none, [], none⟩],
         some [⟨['a', 'n', 'y', 'i', 'o'], none, [],
           some (.ge ⟨[3, 7, 0], none⟩)⟩]⟩
        ['a', 'n', 'y', 'i', 'o']).legacyDev
      = some (removePkg ['a', 'n', 'y', 'i', 'o']
          [⟨['a', 'n', 'y', 'i', 'o'], none, [], none⟩])
    ∧ (removeWithFlag .dev
        ⟨some [⟨['a', 'n', 'y', 'i', 'o'], none, [], none⟩],
         some [⟨['a', 'n', 'y', 'i', 'o'], none, [],
           some (.ge ⟨[3, 7, 0], none⟩)⟩]⟩
        ['a', 'n', 'y', 'i', 'o']).devGroup
      = some (removePkg ['a', 'n', 'y', 'i', 'o']
          [⟨['a', 'n', 'y', 'i', 'o'], none, [],
            some (.ge ⟨[3, 7, 0], none⟩)⟩])
    ∧ removePkg ['a', 'n', 'y', 'i', 'o']
        [⟨['a', 'n', 'y', 'i', 'o'], none, [], none⟩] = []
    ∧ removePkg ['a', 'n', 'y', 'i', 'o']
        [⟨['a', 'n', 'y', 'i', 'o'], none, [],
          some (.ge ⟨[3, 7, 0], none⟩)⟩] = [] :=
  ⟨rfl,
   (dual_site_dev_removal
      ⟨some [⟨['a', 'n', 'y', 'i', 'o'], none, [], none⟩],
       some [⟨['a', 'n', 'y', 'i', 'o'], none, [],
         some (.ge ⟨[3, 7, 0], none⟩)⟩]⟩
      ['a', 'n', 'y', 'i', 'o'] _ _ rfl rfl).2.1,
   (dual_site_dev_removal
      ⟨some [⟨['a', 'n', 'y', 'i', 'o'], none, [], none⟩],
       some [⟨['a', 'n', 'y', 'i', 'o'], none, [],
         some (.ge ⟨[3, 7, 0], none⟩)⟩]⟩
      ['a', 'n', 'y', 'i', 'o'] _ _ rfl rfl).2.2.1,
   by decide, by decide⟩

/-- C8: credential stripping.  For a URL-bearing source, the default
(non-raw) persistence goes to the Source Table with the URL's credentials
stripped — no credentials ever reach the manifest — while under
`--raw-sources` the requirement is inlined with the URL retained verbatim,
credentials included, and no Source Table entry is created. -/
theorem credential_stripping (inc : IncomingSpec) (u : Url)
    (hgit : inc.source = .git u) :
    ((stripCredentials u).userinfo = none
      ∧ persistSource false u = .sourceTable (stripCredentials u)
      ∧ credentialsOf (persistSource false u) = none)
    ∧ sourceFor inc false
        = some (normalizeName inc.name, .git (stripCredentials u))
    ∧ (persistSource true u = .inlined u
      ∧ credentialsOf (persistSource true u) = u.userinfo
      ∧ inlineSpec inc true = some u
      ∧ sourceFor inc true = none) := by
  refine ⟨⟨rfl, rfl, rfl⟩, ?_, rfl, rfl, ?_, rfl⟩
  · simp [sourceFor, hgit]
  · simp [inlineSpec, hgit]

/-- Witness for C8: a Git URL with an embedded token: the Source Table
entry carries no credentials, the raw inlined form keeps the token. -/
theorem credential_stripping_witness :
    ((⟨['p'], none, [], none,
        .git ⟨['h','t','t','p','s'], some ['t','o','k'], ['h'], []⟩⟩
          : IncomingSpec).source
      = .git ⟨['h','t','t','p','s'], some ['t','o','k'], ['h'], []⟩)
    ∧ (stripCredentials
        ⟨['h','t','t','p','s'], some ['t','o','k'], ['h'], []⟩).userinfo
      = none
    ∧ inlineSpec
        ⟨['p'], none, [], none,
          .git ⟨['h','t','t','p','s'], some ['t','o','k'], ['h'], []⟩⟩ true
      = some ⟨['h','t','t','p','s'], some ['t','o','k'], ['h'], []⟩ :=
  ⟨rfl,
   (credential_stripping
      ⟨['p'], none, [], none,
        .git ⟨['h','t','t','p','s'], some ['t','o','k'], ['h'], []⟩⟩
      ⟨['h','t','t','p','s'], some ['t','o','k'], ['h'], []⟩ rfl).1.1,
   (credential_stripping
      ⟨['p'], none, [], none,
        .git ⟨['h','t','t','p','s'], some ['t','o','k'], ['h'], []⟩⟩
      ⟨['h','t','t','p','s'], some ['t','o','k'], ['h'], []⟩ rfl).2.2.2.2.1⟩

end UvSpec
